import Mathlib

/-!
Verification development for the bulk-upload pipeline of the eeprom-writer
firmware: the ring-buffer output sink (`EepromWriter` with `ew_init`,
`ew_write`, `ew_rewrite`, `ew_flush`), the base64 stream decoder
(`_b64bits`, `b64_read`), the serial line reader (`sr_read`) and the
trailer-checksum phase of `BulkWriteEEPROM`.  Machine integers are modelled
as `Nat` with explicit masking where the C code wraps; the storage device is
a function from addresses to bytes; traces of emitted bytes, of device
reads, and of source pull requests are carried as ghost components so that
the specification's statements about emission history and device traffic can
be expressed.
-/

namespace EWSpec

/-- Source constant `ew_bufsiz = 1 << 6`: capacity of the ring buffer. -/
def ew_bufsiz : Nat := 64

/-- Source constant `eeprom_size = 1 << 15`: device capacity in bytes. -/
def eeprom_size : Nat := 32768

/-- Source constant `kMaxBufferSize = 64`: size of the shared scratch buffer. -/
def kMaxBufferSize : Nat := 64

/-- The storage device, a byte-addressable memory. -/
abbrev Mem := Nat → Nat

/-- A blank device, every cell 0. -/
def mem0 : Mem := fun _ => 0

/-- `WriteBufferToEEPROM(buf, addr, size)`: store the bytes at consecutive
addresses starting at `addr` (the page-boundary wait is timing only). -/
def memWrite (m : Mem) (addr : Nat) : List Nat → Mem
  | [] => m
  | b :: bs => memWrite (Function.update m addr b) (addr + 1) bs

/-- `ReadEEPROMIntoBuffer(buf, addr, size)`: the `size` bytes at consecutive
addresses starting at `addr`. -/
def eepromRead (m : Mem) (addr size : Nat) : List Nat :=
  (List.range size).map (fun i => m (addr + i))

/-- Modelled from the spec: `adler32.c` is not under `src/`; spec §4.4 gives
the algorithm: two accumulators `a`, `b`, `a += byte`, `b += a`, both mod
65521, combined as `(b <<< 16) ||| a`, seeded at `a = 1, b = 0`.  The first
argument is the current combined value, as in the call
`adler32(ew->chksum, ew->buf, ew->bufidx)`. -/
def adler32 (chk : Nat) (buf : List Nat) : Nat :=
  let p := buf.foldl
    (fun (ab : Nat × Nat) c =>
      ((ab.1 + c) % 65521, (ab.2 + ((ab.1 + c) % 65521)) % 65521))
    (chk % 65536, chk / 65536)
  p.2 * 65536 + p.1

/-- `struct EepromWriter`: the ring-buffer sink.  `buf` is the 64-byte ring
(indices ≥ 64 are never accessed); the C struct leaves it uninitialized, the
model starts it at zero. -/
structure EepromWriter where
  base_address : Nat
  buf : Nat → Nat
  bufidx : Nat
  outlen : Nat
  chksum : Nat

/-- `ew_init(ew, base_address)`. -/
def ew_init (base_address : Nat) : EepromWriter :=
  ⟨base_address, fun _ => 0, 0, 0, 1⟩

/-- `ew_flush(ew)`: extend the checksum over `buf[0..bufidx)`, write those
bytes to the device at `base_address + outlen - bufidx`, reset the cursor. -/
def ew_flush (ew : EepromWriter) (m : Mem) : EepromWriter × Mem :=
  let bytes := (List.range ew.bufidx).map ew.buf
  ({ ew with chksum := adler32 ew.chksum bytes, bufidx := 0 },
   memWrite m (ew.base_address + ew.outlen - ew.bufidx) bytes)

/-- The guard `if (ew->bufidx & ew_bufsiz) ew_flush(ew);` that precedes every
byte store in `ew_write` and `ew_rewrite`. -/
def ew_flushIf (ew : EepromWriter) (m : Mem) : EepromWriter × Mem :=
  if ew.bufidx &&& ew_bufsiz ≠ 0 then ew_flush ew m else (ew, m)

/-- Store one byte at the cursor and advance: `ew->buf[ew->bufidx++] = b;`
together with the `outlen` bump. -/
def ew_store (ew : EepromWriter) (b : Nat) : EepromWriter :=
  { ew with buf := Function.update ew.buf ew.bufidx b,
            bufidx := ew.bufidx + 1, outlen := ew.outlen + 1 }

/-- The source-index wrap `if (from & ew_bufsiz) from = 0;` of the near-copy
loop. -/
def near_wrap (f0 : Nat) : Nat := if f0 &&& ew_bufsiz ≠ 0 then 0 else f0

/-- One byte through the ring: the body of the copy loop of `ew_write`
(whose `memcpy` of `k` bytes is the same as `k` single-byte stores, since
the chunk size `k` is chosen so that no flush is needed inside a chunk):
flush if the buffer is full, store at `bufidx`, advance `bufidx` and
`outlen`. -/
def ew_emit1 (ew : EepromWriter) (m : Mem) (b : Nat) : EepromWriter × Mem :=
  let (ew1, m1) := ew_flushIf ew m
  (ew_store ew1 b, m1)

/-- The copy loop of `ew_write`, one byte at a time. -/
def ew_write_go : List Nat → EepromWriter → Mem → EepromWriter × Mem
  | [], ew, m => (ew, m)
  | b :: bs, ew, m =>
      let (ew1, m1) := ew_emit1 ew m b
      ew_write_go bs ew1 m1

/-- `ew_write(ew, buf, n)`: truncate `n` so that `n + outlen ≤ eeprom_size`
(the C line `if (n + ew->outlen > eeprom_size) n = eeprom_size - ew->outlen;`),
push the first `n` bytes through the ring, return the new state and the
count `actual = n`. -/
def ew_write (ew : EepromWriter) (m : Mem) (src : List Nat) : EepromWriter × Mem × Nat :=
  let n := if eeprom_size < src.length + ew.outlen then eeprom_size - ew.outlen
           else src.length
  let (ew1, m1) := ew_write_go (src.take n) ew m
  (ew1, m1, n)

/-- The near-back-reference loop of `ew_rewrite` (`dist < ew_bufsiz`):
per iteration flush if full, wrap the source index
(`if (from & ew_bufsiz) from = 0;`), copy `buf[from]` to `buf[bufidx]`,
advance both.  The third component is the ghost list of bytes stored, in
order (the emission trace). -/
def ew_rewrite_near : Nat → Nat → EepromWriter → Mem → EepromWriter × Mem × List Nat
  | 0, _, ew, m => (ew, m, [])
  | i + 1, from0, ew, m =>
      let (ew1, m1) := ew_flushIf ew m
      let f := near_wrap from0
      let b := ew1.buf f
      let r := ew_rewrite_near i (f + 1) (ew_store ew1 b) m1
      (r.1, r.2.1, b :: r.2.2)

/-- The far-back-reference loop of `ew_rewrite` (`dist ≥ ew_bufsiz`): read
chunks of at most `kMaxBufferSize` bytes from the device at
`base_address + outlen - dist` and re-emit them through `ew_write`.  `rem`
is `n - actual`; the extra `fuel` argument only makes the recursion
structural and is dead code whenever `fuel ≥ rem`, because each iteration
consumes `k ≥ 1`.  The last two components are ghost: the emission trace and
the list of device reads as `(address, length)` pairs. -/
def ew_rewrite_far_go (dist : Nat) :
    Nat → Nat → EepromWriter → Mem → EepromWriter × Mem × List Nat × List (Nat × Nat)
  | 0, _, ew, m => (ew, m, [], [])
  | fuel + 1, rem, ew, m =>
      if rem = 0 then (ew, m, [], [])
      else
        let k := if kMaxBufferSize < rem then kMaxBufferSize else rem
        let addr := ew.base_address + ew.outlen - dist
        let chunk := eepromRead m addr k
        let (ew1, m1, cnt) := ew_write ew m chunk
        let r := ew_rewrite_far_go dist fuel (rem - k) ew1 m1
        (r.1, r.2.1, chunk.take cnt ++ r.2.2.1, (addr, k) :: r.2.2.2)

/-- The far branch of `ew_rewrite`, with fuel `n` (enough for all chunks). -/
def ew_rewrite_far (dist n : Nat) (ew : EepromWriter) (m : Mem) :
    EepromWriter × Mem × List Nat × List (Nat × Nat) :=
  ew_rewrite_far_go dist n n ew m

/-- Result of `ew_rewrite`: final sink state, device state, the C return
value, and the ghost emission trace and device-read log. -/
structure EwRes where
  ew : EepromWriter
  mem : Mem
  ret : Int
  trace : List Nat
  reads : List (Nat × Nat)

/-- `ew_rewrite(ew, n, dist)`: fail with -1 if `dist > outlen`; resolve from
the ring if `dist < ew_bufsiz` (source index `(bufidx - dist) & (ew_bufsiz-1)`,
a two's-complement masked subtraction, written here as
`(bufidx + ew_bufsiz - dist) % ew_bufsiz`); otherwise re-read from the
device.  Returns `n` on success. -/
def ew_rewrite (ew : EepromWriter) (m : Mem) (n dist : Nat) : EwRes :=
  if ew.outlen < dist then ⟨ew, m, -1, [], []⟩
  else if dist < ew_bufsiz then
    let from0 := (ew.bufidx + ew_bufsiz - dist) % ew_bufsiz
    let r := ew_rewrite_near n from0 ew m
    ⟨r.1, r.2.1, (n : Int), r.2.2, []⟩
  else
    let r := ew_rewrite_far dist n ew m
    ⟨r.1, r.2.1, (n : Int), r.2.2.1, r.2.2.2⟩

/-- One abstract sink operation, as issued by the inflate engine. -/
inductive EwOp where
  | write : List Nat → EwOp
  | rewrite : Nat → Nat → EwOp

/-- Apply one sink operation; the third component is the ghost list of bytes
the operation emitted. -/
def ew_step (ew : EepromWriter) (m : Mem) : EwOp → EepromWriter × Mem × List Nat
  | .write bs =>
      let (ew1, m1, cnt) := ew_write ew m bs
      (ew1, m1, bs.take cnt)
  | .rewrite n dist =>
      let r := ew_rewrite ew m n dist
      (r.ew, r.mem, r.trace)

/-- Run a sequence of sink operations, accumulating the emission trace. -/
def ew_runFrom (ew : EepromWriter) (m : Mem) (E : List Nat) :
    List EwOp → EepromWriter × Mem × List Nat
  | [] => (ew, m, E)
  | op :: ops =>
      let (ew1, m1, t) := ew_step ew m op
      ew_runFrom ew1 m1 (E ++ t) ops

/-- The ring-buffer invariant against the emission history `E`:
`outlen` counts the emitted bytes, the cursor is at most `ew_bufsiz` and
congruent to `outlen` mod `ew_bufsiz`, and the byte emitted at each global
position `p` in the window of the most recent `min (E.length) ew_bufsiz`
positions is still in the ring at slot `p % ew_bufsiz`. -/
def RingInv (ew : EepromWriter) (E : List Nat) : Prop :=
  ew.outlen = E.length ∧ ew.bufidx ≤ 64 ∧ ew.bufidx % 64 = ew.outlen % 64 ∧
  ∀ p, p < E.length → E.length ≤ p + min E.length 64 →
    ew.buf (p % 64) = E.getD p 0

instance (ew : EepromWriter) (E : List Nat) : Decidable (RingInv ew E) := by
  unfold RingInv
  exact inferInstance

/-- `_b64bits(b)`: map one character to its 6-bit value, or `0xff` for a
character outside the alphabet.  The C local `unsigned char v = (b|0x20)-0x61`
wraps mod 256, written here as `((b ||| 0x20) + 256 - 0x61) % 256`. -/
def _b64bits (b : Nat) : Nat :=
  if b &&& 0x80 ≠ 0 then 0xff
  else if b &&& 0x40 ≠ 0 then
    let v := ((b ||| 0x20) + 256 - 0x61) % 256
    if 26 ≤ v then 0xff
    else if b &&& 0x20 ≠ 0 then v + 26
    else v
  else if 0x30 ≤ b ∧ b < 0x3a then b - 0x30 + 52
  else if b = 43 ∨ b = 45 then 62
  else if b = 47 ∨ b = 95 ∨ b = 44 then 63
  else if b = 61 then 0
  else 0xff

/-- `struct _b64decoder` (minus the callback fields, which the model passes
explicitly): the 3-byte stack of decoded bytes with next at `stack[n-1]`,
and the count `n`, an `unsigned char`.  The stack is modelled as a function
so that the out-of-bounds accesses the error path performs stay expressible
(the model reads 0 where the C reads adjacent memory); the C struct leaves
it uninitialized, the model starts it at zero. -/
structure B64Decoder where
  stack : Nat → Nat
  n : Nat

/-- `b64_init`: count starts at 0. -/
def b64_init : B64Decoder := ⟨fun _ => 0, 0⟩

/-- The filler loop `while (j < 4) data[j++] = '=';` applied to a short pull:
pad the pulled characters to 4 with `'='` (61). -/
def pad4 (d : List Nat) : List Nat :=
  d.take 4 ++ List.replicate (4 - d.length) 61

/-- The pad scan `for (j=2; j<4 && data[j] != '='; j++); skip = 4 - j;`:
2 if the character at index 2 is `'='`, else 1 if the one at index 3 is,
else 0. -/
def b64_skip (p : List Nat) : Nat :=
  if p.getD 2 0 = 61 then 2 else if p.getD 3 0 = 61 then 1 else 0

/-- The packing loop: fold the 6-bit values into `packed`, stopping with
`ok = false` (and the partial accumulator) at the first character that
`_b64bits` rejects. -/
def b64_pack : List Nat → Nat → Nat × Bool
  | [], acc => (acc, true)
  | c :: cs, acc =>
      if _b64bits c = 255 then (acc, false)
      else b64_pack cs (acc * 64 + _b64bits c)

/-- The unpacking loop
`for (j=0; j<3; j++, packed >>= 8) if (j-skip >= 0) b64->stack[j-skip] = packed & 0xff;`. -/
def b64_unpack (st : Nat → Nat) (packed skip : Nat) : Nat → Nat :=
  (List.range 3).foldl
    (fun s j => if skip ≤ j then Function.update s (j - skip) (packed / 256 ^ j % 256) else s)
    st

/-- One refill of the decoder from a pulled group `d` of at least 2
characters: pad to 4, count the pads, pack (an alphabet error forces the
count to 0), unpack onto the stack. -/
def b64_refill (b : B64Decoder) (d : List Nat) : B64Decoder :=
  let p := pad4 d
  { stack := b64_unpack b.stack (b64_pack p 0).1 (b64_skip p),
    n := if (b64_pack p 0).2 then 3 - b64_skip p else 0 }

/-- Result of `b64_read`: source state, decoder state, the decoded bytes
written to `buf` (length = the C return value `i`), and the ghost log of the
byte counts requested from the underlying source. -/
structure B64Out (σ : Type) where
  src : σ
  dec : B64Decoder
  out : List Nat
  log : List Nat

/-- `b64_read(b64, buf, n)` over an abstract pulled source `rd`:
per requested byte, refill when the count is 0 by pulling 4 characters
(stop, returning the bytes so far, when fewer than 2 arrive), then pop
`stack[--n]` — the decrement is `unsigned char` arithmetic, so a pop at
count 0 wraps to 255. -/
def b64_read {σ : Type} (rd : σ → Nat → σ × List Nat) :
    σ → B64Decoder → Nat → B64Out σ
  | s, b, 0 => ⟨s, b, [], []⟩
  | s, b, k + 1 =>
      if b.n = 0 then
        if (rd s 4).2.length < 2 then ⟨(rd s 4).1, b, [], [4]⟩
        else
          let b1 := b64_refill b (rd s 4).2
          let r := b64_read rd (rd s 4).1 ⟨b1.stack, (b1.n + 255) % 256⟩ k
          ⟨r.src, r.dec, b1.stack ((b1.n + 255) % 256) :: r.out, 4 :: r.log⟩
      else
        let r := b64_read rd s ⟨b.stack, (b.n + 255) % 256⟩ k
        ⟨r.src, r.dec, b.stack ((b.n + 255) % 256) :: r.out, r.log⟩

/-- A concrete pulled source for witnesses: a queue of groups, one group
handed out (truncated to the requested size) per pull. -/
def queueRead : List (List Nat) → Nat → List (List Nat) × List Nat
  | [], _ => ([], [])
  | g :: gs, k => (gs, g.take k)

/-- Every character of the group is inside the accepted alphabet. -/
def allValid (p : List Nat) : Prop := ∀ c ∈ p, _b64bits c ≠ 255

instance (p : List Nat) : Decidable (allValid p) := by
  unfold allValid
  exact inferInstance

/-- The number of decoded bytes a refill yields, `3 - skip`. -/
def padBytes (p : List Nat) : Nat := 3 - b64_skip p

/-- `struct SerialReader`: the buffered current line (`buf` up to `buflen`)
and the read cursor. -/
structure SerialReader where
  buf : List Nat
  bufidx : Nat

/-- `sr_init`. -/
def sr_init : SerialReader := ⟨[], 0⟩

/-- The `while (actual < n)` loop of `sr_read`.  `lines k` is the k-th line
the blocking `ReadString()` delivers (already stripped of control
characters, as `ReadString` stores only bytes > 31); a line longer than
`kMaxBufferSize` returns -1 at once, leaving the reader state as it was.
`fuel` bounds the number of iterations: the C loop can spin forever on empty
lines, which the model reports as `none`. -/
def sr_read_loop (lines : Nat → List Nat) :
    Nat → Nat → SerialReader → Nat → Nat → List Nat →
    Option (Nat × SerialReader × List Nat × Int)
  | 0, _, _, _, _, _ => none
  | fuel + 1, k, s, n, actual, acc =>
      if actual < n then
        if s.buf.length ≤ s.bufidx then
          let line := lines k
          if kMaxBufferSize < line.length then some (k + 1, s, acc, -1)
          else sr_read_loop lines fuel (k + 1) ⟨line, 0⟩ n actual acc
        else
          let avail := s.buf.length - s.bufidx
          let req0 := n - actual
          let req := if avail < req0 then avail else req0
          let chunk := (s.buf.drop s.bufidx).take req
          sr_read_loop lines fuel k ⟨s.buf, s.bufidx + req⟩ n (actual + req) (acc ++ chunk)
      else some (k, s, acc, (actual : Int))

/-- `sr_read(s, buf, n)`: result is the line cursor, reader state, the bytes
copied into `buf`, and the C return value. -/
def sr_read (lines : Nat → List Nat) (fuel k : Nat) (s : SerialReader) (n : Nat) :
    Option (Nat × SerialReader × List Nat × Int) :=
  sr_read_loop lines fuel k s n 0 []

/-- The tail of `BulkWriteEEPROM` after `puffs` returns, with the states the
inflation left behind as inputs: `ew_flush(&ew)`, then pull 4 trailer bytes
through the same base64 decoder, fold them big-endian into the 32-bit
`expected` (`expected = (expected << 8) | data[i]`; trailer bytes the pull
did not deliver are the C's uninitialized `data[]`, modelled as 0), and
compare with the running checksum.  Returns the device state, `expected`,
the comparison outcome, the flushed sink state, and the decoder result. -/
def bulk_finish {σ : Type} (rd : σ → Nat → σ × List Nat) (s : σ) (b : B64Decoder)
    (ew : EepromWriter) (m : Mem) :
    Mem × Nat × Bool × EepromWriter × B64Out σ :=
  let (ew1, m1) := ew_flush ew m
  let r := b64_read rd s b 4
  let expected := (List.range 4).foldl
    (fun e i => (e * 256 + r.out.getD i 0) % 4294967296) 0
  (m1, expected, expected == ew1.chksum, ew1, r)

/-- Modelled from the claim's words, for comparison with `_b64bits` (claim
C10): 'A'-'Z' to 0-25, 'a'-'z' to 26-51, '0'-'9' to 52-61, '+' and '-' to
62, '/', '_' and ',' to 63, '=' to 0, everything else to 0xff. -/
def b64bits_claimed (b : Nat) : Nat :=
  if 0x41 ≤ b ∧ b ≤ 0x5a then b - 0x41
  else if 0x61 ≤ b ∧ b ≤ 0x7a then b - 0x61 + 26
  else if 0x30 ≤ b ∧ b ≤ 0x39 then b - 0x30 + 52
  else if b = 43 ∨ b = 45 then 62
  else if b = 47 ∨ b = 95 ∨ b = 44 then 63
  else if b = 61 then 0
  else 0xff

/-- A concrete run for witnesses: 64 bytes of value 5 written from the
initial state at base address 0 on a blank device. -/
def run64 : EepromWriter × Mem × List Nat :=
  ew_runFrom (ew_init 0) mem0 [] [EwOp.write (List.replicate 64 5)]

/-- A concrete run for witnesses: the single byte 0x7A written from the
initial state. -/
def runByte : EepromWriter × Mem × List Nat :=
  ew_runFrom (ew_init 0) mem0 [] [EwOp.write [122]]

/-! Helper lemmas: the ring-buffer invariant is preserved by every sink
operation. -/

theorem land64_of_lt : ∀ x < 64, x &&& 64 = 0 := by decide

theorem land64_ne_zero_iff {x : Nat} (hx : x ≤ 64) : x &&& 64 ≠ 0 ↔ x = 64 := by
  constructor
  · intro h
    by_contra hne
    exact h (land64_of_lt x (by omega))
  · rintro rfl
    decide

theorem ew_flushIf_buf (ew : EepromWriter) (m : Mem) :
    (ew_flushIf ew m).1.buf = ew.buf ∧ (ew_flushIf ew m).1.outlen = ew.outlen ∧
    (ew_flushIf ew m).1.base_address = ew.base_address := by
  unfold ew_flushIf ew_flush
  split <;> exact ⟨rfl, rfl, rfl⟩

theorem ew_flushIf_bufidx (ew : EepromWriter) (m : Mem) (hb : ew.bufidx ≤ 64) :
    (ew.bufidx = 64 ∧ (ew_flushIf ew m).1.bufidx = 0) ∨
    (ew.bufidx < 64 ∧ (ew_flushIf ew m).1.bufidx = ew.bufidx) := by
  unfold ew_flushIf ew_flush
  split
  · next h => exact Or.inl ⟨(land64_ne_zero_iff hb).1 h, rfl⟩
  · next h =>
    refine Or.inr ⟨?_, rfl⟩
    rcases Nat.lt_or_ge ew.bufidx 64 with h' | h'
    · exact h'
    · exact absurd ((land64_ne_zero_iff hb).2 (by omega)) h

theorem ringInv_flushIf {ew : EepromWriter} {E : List Nat} (m : Mem)
    (h : RingInv ew E) :
    RingInv (ew_flushIf ew m).1 E ∧ (ew_flushIf ew m).1.bufidx < 64 := by
  obtain ⟨h1, h2, h3, h4⟩ := h
  obtain ⟨hbuf, hout, _⟩ := ew_flushIf_buf ew m
  rcases ew_flushIf_bufidx ew m h2 with ⟨he, hi⟩ | ⟨he, hi⟩
  · refine ⟨⟨by rw [hout, h1], by omega, by omega, ?_⟩, by omega⟩
    intro p hp hw
    rw [hbuf]
    exact h4 p hp hw
  · refine ⟨⟨by rw [hout, h1], by omega, by rw [hi, hout]; exact h3, ?_⟩, by omega⟩
    intro p hp hw
    rw [hbuf]
    exact h4 p hp hw

theorem near_wrap_mod {f0 : Nat} (hf : f0 ≤ 64) : near_wrap f0 = f0 % 64 := by
  unfold near_wrap
  split
  · next hg =>
    have : f0 = 64 := (land64_ne_zero_iff hf).1 hg
    omega
  · next hg =>
    have : f0 ≠ 64 := fun he => hg ((land64_ne_zero_iff hf).2 he)
    omega

theorem ringInv_store {ew : EepromWriter} {E : List Nat} (b : Nat)
    (h : RingInv ew E) (hlt : ew.bufidx < 64) :
    RingInv (ew_store ew b) (E ++ [b]) := by
  unfold ew_store
  obtain ⟨h1, h2, h3, h4⟩ := h
  have hlen : (E ++ [b]).length = E.length + 1 := by simp
  refine ⟨by simp [h1], by show ew.bufidx + 1 ≤ 64; omega, ?_, ?_⟩
  · show (ew.bufidx + 1) % 64 = (ew.outlen + 1) % 64
    omega
  · intro p hp hw
    rw [hlen] at hp hw
    show Function.update ew.buf ew.bufidx b (p % 64) = (E ++ [b]).getD p 0
    rcases Nat.lt_or_ge p E.length with hplt | hpge
    · have hne : p % 64 ≠ ew.bufidx := by omega
      rw [Function.update_noteq hne, List.getD_append _ _ _ _ hplt]
      exact h4 p hplt (by omega)
    · have hidx : p % 64 = ew.bufidx := by omega
      rw [hidx, Function.update_same, List.getD_append_right _ _ _ _ (by omega : E.length ≤ p)]
      have hz : p - E.length = 0 := by omega
      rw [hz]
      rfl

theorem ringInv_emit1 {ew : EepromWriter} {E : List Nat} (m : Mem) (b : Nat)
    (h : RingInv ew E) : RingInv (ew_emit1 ew m b).1 (E ++ [b]) := by
  obtain ⟨h1, h2⟩ := ringInv_flushIf m h
  exact ringInv_store b h1 h2

theorem ringInv_write_go : ∀ (bs : List Nat) (ew : EepromWriter) (m : Mem) (E : List Nat),
    RingInv ew E → RingInv (ew_write_go bs ew m).1 (E ++ bs)
  | [], _, _, E, h => by simpa using h
  | b :: bs, ew, m, E, h => by
      have h2 := ringInv_write_go bs (ew_emit1 ew m b).1 (ew_emit1 ew m b).2 (E ++ [b])
        (ringInv_emit1 m b h)
      have h3 : E ++ b :: bs = (E ++ [b]) ++ bs := by simp
      rw [h3]
      exact h2

theorem ringInv_write {ew : EepromWriter} {E : List Nat} (m : Mem) (src : List Nat)
    (h : RingInv ew E) :
    RingInv (ew_write ew m src).1 (E ++ src.take (ew_write ew m src).2.2) := by
  exact ringInv_write_go _ ew m E h

theorem ew_rewrite_near_succ (k f0 : Nat) (ew : EepromWriter) (m : Mem) :
    ew_rewrite_near (k + 1) f0 ew m =
      ((ew_rewrite_near k (near_wrap f0 + 1)
          (ew_store (ew_flushIf ew m).1 ((ew_flushIf ew m).1.buf (near_wrap f0)))
          (ew_flushIf ew m).2).1,
       (ew_rewrite_near k (near_wrap f0 + 1)
          (ew_store (ew_flushIf ew m).1 ((ew_flushIf ew m).1.buf (near_wrap f0)))
          (ew_flushIf ew m).2).2.1,
       (ew_flushIf ew m).1.buf (near_wrap f0) ::
         (ew_rewrite_near k (near_wrap f0 + 1)
            (ew_store (ew_flushIf ew m).1 ((ew_flushIf ew m).1.buf (near_wrap f0)))
            (ew_flushIf ew m).2).2.2) := rfl

theorem ringInv_near : ∀ (k f0 : Nat) (ew : EepromWriter) (m : Mem) (E : List Nat),
    RingInv ew E → f0 ≤ 64 →
    RingInv (ew_rewrite_near k f0 ew m).1 (E ++ (ew_rewrite_near k f0 ew m).2.2)
  | 0, _, ew, m, E, h, _ => by
      show RingInv ew (E ++ [])
      simpa using h
  | k + 1, f0, ew, m, E, h, hf => by
      obtain ⟨hI1, hlt⟩ := ringInv_flushIf m h
      have hwm := near_wrap_mod hf
      have hb := ringInv_store ((ew_flushIf ew m).1.buf (near_wrap f0)) hI1 hlt
      have h2 := ringInv_near k (near_wrap f0 + 1) _ (ew_flushIf ew m).2 _ hb (by omega)
      rw [ew_rewrite_near_succ]
      dsimp only
      rw [List.append_cons]
      exact h2

theorem ew_near_spec : ∀ (k f0 s : Nat) (ew : EepromWriter) (m : Mem) (E : List Nat),
    RingInv ew E → f0 ≤ 64 → f0 % 64 = s % 64 → s < E.length → E.length ≤ s + 64 →
    (ew_rewrite_near k f0 ew m).2.2.length = k ∧
    RingInv (ew_rewrite_near k f0 ew m).1 (E ++ (ew_rewrite_near k f0 ew m).2.2) ∧
    ∀ j, j < k → (ew_rewrite_near k f0 ew m).2.2.getD j 0 =
      (E ++ (ew_rewrite_near k f0 ew m).2.2).getD (s + j) 0
  | 0, _, _, ew, m, E, h, _, _, _, _ => by
      refine ⟨rfl, ?_, fun j hj => by omega⟩
      show RingInv ew (E ++ [])
      simpa using h
  | k + 1, f0, s, ew, m, E, h, hf, hfs, hs, hw => by
      obtain ⟨hI1, hlt⟩ := ringInv_flushIf m h
      have hwm : near_wrap f0 = s % 64 := by rw [near_wrap_mod hf]; omega
      have hbval : (ew_flushIf ew m).1.buf (near_wrap f0) = E.getD s 0 := by
        rw [hwm]
        exact hI1.2.2.2 s hs (by omega)
      have hI2 := ringInv_store ((ew_flushIf ew m).1.buf (near_wrap f0)) hI1 hlt
      obtain ⟨ihlen, ihinv, ihval⟩ := ew_near_spec k (near_wrap f0 + 1) (s + 1) _
        (ew_flushIf ew m).2 _ hI2 (by omega)
        (by omega)
        (by simp only [List.length_append, List.length_cons, List.length_nil]; omega)
        (by simp only [List.length_append, List.length_cons, List.length_nil]; omega)
      rw [ew_rewrite_near_succ]
      dsimp only
      refine ⟨by rw [List.length_cons, ihlen], ?_, ?_⟩
      · rw [List.append_cons]
        exact ihinv
      · intro j hj
        cases j with
        | zero =>
          simp only [List.getD_cons_zero, Nat.add_zero]
          rw [List.getD_append _ _ _ _ hs, hbval]
        | succ j' =>
          rw [List.getD_cons_succ, List.append_cons,
            show s + (j' + 1) = s + 1 + j' from by omega]
          exact ihval j' (by omega)


theorem ringInv_far_go : ∀ (fuel rem dist : Nat) (ew : EepromWriter) (m : Mem) (E : List Nat),
    RingInv ew E →
    RingInv (ew_rewrite_far_go dist fuel rem ew m).1
      (E ++ (ew_rewrite_far_go dist fuel rem ew m).2.2.1)
  | 0, _, _, _, _, E, h => by simpa [ew_rewrite_far_go] using h
  | fuel + 1, rem, dist, ew, m, E, h => by
      unfold ew_rewrite_far_go
      split
      · simpa using h
      · have h1 := ringInv_write m
          (eepromRead m (ew.base_address + ew.outlen - dist)
            (if kMaxBufferSize < rem then kMaxBufferSize else rem)) h
        have h2 := ringInv_far_go fuel (rem - (if kMaxBufferSize < rem then kMaxBufferSize else rem))
          dist _ (ew_write ew m (eepromRead m (ew.base_address + ew.outlen - dist)
            (if kMaxBufferSize < rem then kMaxBufferSize else rem))).2.1 _ h1
        have h3 : ∀ (t u : List Nat), E ++ (t ++ u) = (E ++ t) ++ u := by
          intro t u
          simp
        rw [h3]
        exact h2

theorem ringInv_rewrite {ew : EepromWriter} {E : List Nat} (m : Mem) (n dist : Nat)
    (h : RingInv ew E) :
    RingInv (ew_rewrite ew m n dist).ew (E ++ (ew_rewrite ew m n dist).trace) := by
  unfold ew_rewrite
  split
  · simpa using h
  · split
    · exact ringInv_near n _ ew m E h (Nat.le_of_lt (Nat.mod_lt _ (by decide)))
    · exact ringInv_far_go n n dist ew m E h

theorem ringInv_step {ew : EepromWriter} {E : List Nat} (m : Mem) (op : EwOp)
    (h : RingInv ew E) :
    RingInv (ew_step ew m op).1 (E ++ (ew_step ew m op).2.2) := by
  cases op with
  | write bs => exact ringInv_write m bs h
  | rewrite n dist => exact ringInv_rewrite m n dist h

theorem ringInv_run : ∀ (ops : List EwOp) (ew : EepromWriter) (m : Mem) (E : List Nat),
    RingInv ew E →
    RingInv (ew_runFrom ew m E ops).1 (ew_runFrom ew m E ops).2.2
  | [], _, _, _, h => h
  | op :: ops, ew, m, E, h =>
      ringInv_run ops (ew_step ew m op).1 (ew_step ew m op).2.1
        (E ++ (ew_step ew m op).2.2) (ringInv_step m op h)

theorem ew_rewrite_far_go_zero : ∀ (fuel dist : Nat) (ew : EepromWriter) (m : Mem),
    ew_rewrite_far_go dist fuel 0 ew m = (ew, m, [], [])
  | 0, _, _, _ => rfl
  | _ + 1, _, _, _ => by
      unfold ew_rewrite_far_go
      rw [if_pos rfl]

/-! Claim theorems. -/

/-- Claim C1: a call `ew_rewrite(ew, n, dist)` with `dist > ew->outlen` on
the ring-buffer sink returns the out-of-range error result -1 and writes
nothing: the sink state (buffer contents, write cursor `bufidx`, total
emitted `outlen`, running checksum) and the device state are returned
unchanged, and the emission trace and device-read log of the call are
empty. -/
theorem c1_backref_out_of_range (ew : EepromWriter) (m : Mem) (n dist : Nat)
    (h : ew.outlen < dist) :
    ew_rewrite ew m n dist = ⟨ew, m, -1, [], []⟩ := by
  unfold ew_rewrite
  rw [if_pos h]

/-- Witness for C1: a back-reference of distance 2 against a freshly
initialized sink (0 bytes emitted) fails and changes nothing. -/
theorem c1_backref_out_of_range_witness :
    ew_rewrite (ew_init 7) mem0 5 2 = ⟨ew_init 7, mem0, -1, [], []⟩ :=
  c1_backref_out_of_range (ew_init 7) mem0 5 2 (by decide)

/-- Claim C2 (amended): for every sequence of sink operations (`ew_write` of
any chunk, `ew_rewrite` of any back-reference) from the state produced by
`ew_init`, the ring invariant holds: `outlen` equals the length of the
emitted history, `bufidx ≤ capacity` with `bufidx ≡ outlen (mod capacity)`
(equality `bufidx = outlen mod capacity` can fail only in the one state
where the buffer is exactly full awaiting its lazy flush, when `bufidx =
capacity`), and the buffer holds the most recent `min(total_emitted,
capacity)` emitted bytes, contiguous modulo capacity (the byte of global
position `p` in that window sits at slot `p mod capacity`). -/
theorem c2_ring_invariant (a : Nat) (m0 : Mem) (ops : List EwOp) :
    RingInv (ew_runFrom (ew_init a) m0 [] ops).1 (ew_runFrom (ew_init a) m0 [] ops).2.2 :=
  ringInv_run ops (ew_init a) m0 []
    ⟨rfl, by show (0 : Nat) ≤ 64; omega, rfl, fun p hp _ => absurd hp (Nat.not_lt_zero p)⟩

/-- Counterexample for C2 as stated: after `ew_write` of exactly 64 bytes
from the initial state the write cursor is 64, not `outlen mod 64 = 0` —
the flush is lazy, so the claimed equality `write_cursor = total_emitted mod
capacity` fails in the buffer-exactly-full state. -/
theorem c2_ring_invariant_cex :
    run64.1.bufidx ≠ run64.1.outlen % 64 ∧
    run64.1.bufidx = 64 ∧ run64.1.outlen % 64 = 0 := by
  refine ⟨by decide, by decide, by decide⟩

/-- Claim C3: a near back-reference (`1 ≤ dist < ew_bufsiz`, `dist` within
the emitted history `E`) on a sink satisfying the ring invariant copies
forward byte-by-byte from `dist` positions back: it returns `n`, emits
exactly `n` bytes, and the `j`-th emitted byte equals byte
`E.length - dist + j` of the extended output stream — which is exactly the
self-overlapping DEFLATE copy (for `dist = 1` it replicates the last byte
`n` times). -/
theorem c3_overlapping_copy (ew : EepromWriter) (m : Mem) (E : List Nat) (n dist : Nat)
    (hInv : RingInv ew E) (h1 : 1 ≤ dist) (h2 : dist < ew_bufsiz) (h3 : dist ≤ E.length) :
    (ew_rewrite ew m n dist).ret = (n : Int) ∧
    (ew_rewrite ew m n dist).trace.length = n ∧
    ∀ j, j < n → (ew_rewrite ew m n dist).trace.getD j 0 =
      (E ++ (ew_rewrite ew m n dist).trace).getD (E.length - dist + j) 0 := by
  have hout := hInv.1
  have hble := hInv.2.1
  have hbmod := hInv.2.2.1
  have hd64 : dist < 64 := h2
  have hguard : ¬ ew.outlen < dist := by omega
  obtain ⟨hlen, _, hval⟩ := ew_near_spec n ((ew.bufidx + ew_bufsiz - dist) % ew_bufsiz)
    (E.length - dist) ew m E hInv
    (by
      have : (ew.bufidx + ew_bufsiz - dist) % ew_bufsiz < 64 :=
        Nat.mod_lt _ (by decide)
      omega)
    (by
      show (ew.bufidx + ew_bufsiz - dist) % ew_bufsiz % 64 = (E.length - dist) % 64
      have he : ew_bufsiz = 64 := rfl
      rw [he]
      omega)
    (by omega) (by omega)
  unfold ew_rewrite
  rw [if_neg hguard, if_pos h2]
  exact ⟨rfl, hlen, hval⟩

/-- Witness for C3: after emitting the single byte 0x7A, the back-reference
`dist = 1, n = 10` succeeds and emits ten more bytes 0x7A. -/
theorem c3_overlapping_copy_witness :
    (ew_rewrite runByte.1 mem0 10 1).ret = (10 : Int) ∧
    (ew_rewrite runByte.1 mem0 10 1).trace.length = 10 ∧
    (ew_rewrite runByte.1 mem0 10 1).trace = List.replicate 10 122 := by
  have h := c3_overlapping_copy runByte.1 mem0 [122] 10 1
    (by decide) (by decide) (by decide) (by decide)
  exact ⟨h.1, h.2.1, by decide⟩

/-- Claim C4 (amended): a back-reference with `dist < ew_bufsiz` (in
particular `dist = capacity - 1 = 63`) performs no storage-device read at
all; one with `dist = capacity = 64` and `1 ≤ n ≤ kMaxBufferSize` performs
exactly one storage read, of `n` bytes at `base_address + outlen - dist`,
and re-emits the bytes read through the literal path `ew_write`, so
checksum, ring state, device state and emission trace are exactly those of
an `ew_write` of the bytes read.  (For `n > kMaxBufferSize` the code issues
one read per chunk of at most `kMaxBufferSize` bytes, not exactly one —
see the counterexample.) -/
theorem c4_backref_boundary (ew : EepromWriter) (m : Mem) (n dist : Nat) :
    (dist < ew_bufsiz → (ew_rewrite ew m n dist).reads = []) ∧
    (dist = ew_bufsiz → ew_bufsiz ≤ ew.outlen → 1 ≤ n → n ≤ kMaxBufferSize →
      (ew_rewrite ew m n dist).reads = [(ew.base_address + ew.outlen - dist, n)] ∧
      (ew_rewrite ew m n dist).ew =
        (ew_write ew m (eepromRead m (ew.base_address + ew.outlen - dist) n)).1 ∧
      (ew_rewrite ew m n dist).mem =
        (ew_write ew m (eepromRead m (ew.base_address + ew.outlen - dist) n)).2.1 ∧
      (ew_rewrite ew m n dist).trace =
        (eepromRead m (ew.base_address + ew.outlen - dist) n).take
          (ew_write ew m (eepromRead m (ew.base_address + ew.outlen - dist) n)).2.2) := by
  constructor
  · intro hd
    unfold ew_rewrite
    split
    · rfl
    · rfl
  · intro hd hle hn1 hn2
    subst hd
    have hguard : ¬ ew.outlen < ew_bufsiz := by omega
    have hnear : ¬ ew_bufsiz < ew_bufsiz := by omega
    unfold ew_rewrite
    rw [if_neg hguard, if_neg hnear]
    unfold ew_rewrite_far
    obtain ⟨n', rfl⟩ : ∃ n', n = n' + 1 := ⟨n - 1, by omega⟩
    unfold ew_rewrite_far_go
    rw [if_neg (by omega : ¬ (n' + 1 = 0))]
    have hk : (if kMaxBufferSize < n' + 1 then kMaxBufferSize else n' + 1) = n' + 1 := by
      rw [if_neg (by
        show ¬ kMaxBufferSize < n' + 1
        have : kMaxBufferSize = 64 := rfl
        omega)]
    simp only [hk]
    rw [Nat.sub_self, ew_rewrite_far_go_zero]
    dsimp only
    refine ⟨rfl, rfl, rfl, ?_⟩
    rw [List.append_nil]

/-- Witness for C4: on a sink with 64 bytes emitted, a `dist = 63` reference
reads nothing from the device, and a `dist = 64, n = 5` reference performs
exactly the one read `(base + outlen - 64, 5)` and equals the literal-path
re-emission. -/
theorem c4_backref_boundary_witness :
    (ew_rewrite run64.1 run64.2.1 7 63).reads = [] ∧
    (ew_rewrite run64.1 run64.2.1 5 64).reads =
      [(run64.1.base_address + run64.1.outlen - 64, 5)] ∧
    (ew_rewrite run64.1 run64.2.1 5 64).ew =
      (ew_write run64.1 run64.2.1
        (eepromRead run64.2.1 (run64.1.base_address + run64.1.outlen - 64) 5)).1 := by
  refine ⟨(c4_backref_boundary run64.1 run64.2.1 7 63).1 (by decide), ?_, ?_⟩
  · exact ((c4_backref_boundary run64.1 run64.2.1 5 64).2 rfl (by decide)
      (by decide) (by decide)).1
  · exact ((c4_backref_boundary run64.1 run64.2.1 5 64).2 rfl (by decide)
      (by decide) (by decide)).2.1

/-- Counterexample for C4 as stated: with 64 bytes emitted, the in-range
back-reference `dist = 64, n = 65` triggers two storage reads, not exactly
one — the far path reads one chunk per `kMaxBufferSize` bytes. -/
theorem c4_backref_boundary_cex :
    (ew_rewrite run64.1 run64.2.1 65 64).reads.length = 2 := by
  decide

/-! Helper lemmas for the base64 decoder. -/

theorem b64_read_pop {σ : Type} (rd : σ → Nat → σ × List Nat) (s : σ)
    (b : B64Decoder) (k : Nat) (h : ¬ b.n = 0) :
    b64_read rd s b (k + 1) =
      ⟨(b64_read rd s ⟨b.stack, (b.n + 255) % 256⟩ k).src,
       (b64_read rd s ⟨b.stack, (b.n + 255) % 256⟩ k).dec,
       b.stack ((b.n + 255) % 256) :: (b64_read rd s ⟨b.stack, (b.n + 255) % 256⟩ k).out,
       (b64_read rd s ⟨b.stack, (b.n + 255) % 256⟩ k).log⟩ := by
  simp only [b64_read]
  rw [if_neg h]

theorem b64_read_short {σ : Type} (rd : σ → Nat → σ × List Nat) (s : σ)
    (b : B64Decoder) (k : Nat) (h : b.n = 0) (h2 : (rd s 4).2.length < 2) :
    b64_read rd s b (k + 1) = ⟨(rd s 4).1, b, [], [4]⟩ := by
  simp only [b64_read]
  rw [if_pos h, if_pos h2]

theorem b64_read_refill {σ : Type} (rd : σ → Nat → σ × List Nat) (s : σ)
    (b : B64Decoder) (k : Nat) (h : b.n = 0) (h2 : ¬ (rd s 4).2.length < 2) :
    b64_read rd s b (k + 1) =
      ⟨(b64_read rd (rd s 4).1
          ⟨(b64_refill b (rd s 4).2).stack, ((b64_refill b (rd s 4).2).n + 255) % 256⟩ k).src,
       (b64_read rd (rd s 4).1
          ⟨(b64_refill b (rd s 4).2).stack, ((b64_refill b (rd s 4).2).n + 255) % 256⟩ k).dec,
       (b64_refill b (rd s 4).2).stack (((b64_refill b (rd s 4).2).n + 255) % 256) ::
         (b64_read rd (rd s 4).1
          ⟨(b64_refill b (rd s 4).2).stack, ((b64_refill b (rd s 4).2).n + 255) % 256⟩ k).out,
       4 :: (b64_read rd (rd s 4).1
          ⟨(b64_refill b (rd s 4).2).stack, ((b64_refill b (rd s 4).2).n + 255) % 256⟩ k).log⟩ := by
  simp only [b64_read]
  rw [if_pos h, if_neg h2]

/-- Popping `k ≤ count` bytes from a non-empty stack touches neither the
source nor the stack contents, issues no pull, and leaves `count - k`. -/
theorem b64_drain {σ : Type} (rd : σ → Nat → σ × List Nat) :
    ∀ (k : Nat) (s : σ) (b : B64Decoder), k ≤ b.n → b.n ≤ 255 →
    (b64_read rd s b k).src = s ∧ (b64_read rd s b k).log = [] ∧
    (b64_read rd s b k).out.length = k ∧ (b64_read rd s b k).dec.n = b.n - k ∧
    (b64_read rd s b k).dec.stack = b.stack
  | 0, _, _, _, _ => ⟨rfl, rfl, rfl, rfl, rfl⟩
  | k + 1, s, b, hk, hle => by
      have hne : ¬ b.n = 0 := by omega
      have hdec : (b.n + 255) % 256 = b.n - 1 := by omega
      rw [b64_read_pop rd s b k hne]
      obtain ⟨ih1, ih2, ih3, ih4, ih5⟩ :=
        b64_drain rd k s ⟨b.stack, (b.n + 255) % 256⟩ (by simp only; omega)
          (by simp only; omega)
      refine ⟨ih1, ih2, ?_, ?_, ih5⟩
      · simp only [List.length_cons, ih3]
      · rw [ih4]
        simp only
        omega

theorem b64_pack_ok : ∀ (p : List Nat) (acc : Nat),
    allValid p → (b64_pack p acc).2 = true
  | [], _, _ => rfl
  | c :: cs, acc, hv => by
      unfold b64_pack
      rw [if_neg (hv c (List.mem_cons_self c cs))]
      exact b64_pack_ok cs _ (fun x hx => hv x (List.mem_cons_of_mem c hx))

theorem b64_skip_le (p : List Nat) : b64_skip p ≤ 2 := by
  unfold b64_skip
  split
  · omega
  · split <;> omega

theorem b64_refill_n (b : B64Decoder) (d : List Nat) (hv : allValid (pad4 d)) :
    (b64_refill b d).n = padBytes (pad4 d) := by
  show (if (b64_pack (pad4 d) 0).2 then 3 - b64_skip (pad4 d) else 0) = padBytes (pad4 d)
  rw [b64_pack_ok (pad4 d) 0 hv]
  rfl

theorem b64_log_all4 {σ : Type} (rd : σ → Nat → σ × List Nat) :
    ∀ (k : Nat) (s : σ) (b : B64Decoder) (x : Nat),
    x ∈ (b64_read rd s b k).log → x = 4
  | 0, _, _, _, hx => absurd hx (List.not_mem_nil _)
  | k + 1, s, b, x, hx => by
      by_cases h : b.n = 0
      · by_cases h2 : (rd s 4).2.length < 2
        · rw [b64_read_short rd s b k h h2] at hx
          simpa using hx
        · rw [b64_read_refill rd s b k h h2] at hx
          simp only [List.mem_cons] at hx
          rcases hx with rfl | hx
          · rfl
          · exact b64_log_all4 rd k _ _ x hx
      · rw [b64_read_pop rd s b k h] at hx
        exact b64_log_all4 rd k _ _ x hx

theorem b64_count_bounded {σ : Type} (rd : σ → Nat → σ × List Nat)
    (hclean : ∀ s', 2 ≤ (rd s' 4).2.length → allValid (pad4 (rd s' 4).2)) :
    ∀ (k : Nat) (s : σ) (b : B64Decoder), b.n ≤ 3 →
    (b64_read rd s b k).dec.n ≤ 3
  | 0, _, _, hb => hb
  | k + 1, s, b, hb => by
      by_cases h : b.n = 0
      · by_cases h2 : (rd s 4).2.length < 2
        · rw [b64_read_short rd s b k h h2]
          exact hb
        · rw [b64_read_refill rd s b k h h2]
          have hrn : (b64_refill b (rd s 4).2).n = padBytes (pad4 (rd s 4).2) :=
            b64_refill_n b _ (hclean s (by omega))
          have hsk := b64_skip_le (pad4 (rd s 4).2)
          have hpb : 1 ≤ padBytes (pad4 (rd s 4).2) ∧ padBytes (pad4 (rd s 4).2) ≤ 3 := by
            unfold padBytes
            omega
          exact b64_count_bounded rd hclean k _ _ (by simp only; omega)
      · rw [b64_read_pop rd s b k h]
        exact b64_count_bounded rd hclean k _ _ (by simp only; omega)

/-! Base64 claim theorems. -/

/-- Claim C5 (amended): `b64_read` pops from the pending stack without
touching the source while the stack can serve the request (refills happen
only at count 0); every pull from the underlying source requests exactly 4
characters; a pull of fewer than 2 characters ends the stream at once, with
no output and the decoder unchanged; a valid pulled group, padded to 4 with
'=' (61), yields per refill `padBytes` decoded bytes, where a pad at group
position 2 gives 1 byte (regardless of position 3), else a pad at position 3
gives 2 bytes, else 3 bytes; and under alphabet-valid input the pending
count always stays in {0,1,2,3}. -/
theorem c5_b64_pull_contract {σ : Type} (rd : σ → Nat → σ × List Nat)
    (s : σ) (b : B64Decoder) :
    (∀ n, n ≤ b.n → b.n ≤ 3 →
      (b64_read rd s b n).src = s ∧ (b64_read rd s b n).log = [] ∧
      (b64_read rd s b n).out.length = n) ∧
    (∀ n x, x ∈ (b64_read rd s b n).log → x = 4) ∧
    (b.n = 0 → (rd s 4).2.length < 2 → ∀ n, 1 ≤ n →
      b64_read rd s b n = ⟨(rd s 4).1, b, [], [4]⟩) ∧
    (b.n = 0 → 2 ≤ (rd s 4).2.length → allValid (pad4 (rd s 4).2) →
      (b64_read rd s b (padBytes (pad4 (rd s 4).2))).out.length =
        padBytes (pad4 (rd s 4).2) ∧
      (b64_read rd s b (padBytes (pad4 (rd s 4).2))).dec.n = 0 ∧
      (b64_read rd s b (padBytes (pad4 (rd s 4).2))).log = [4] ∧
      (b64_read rd s b (padBytes (pad4 (rd s 4).2))).src = (rd s 4).1) ∧
    ((∀ s', 2 ≤ (rd s' 4).2.length → allValid (pad4 (rd s' 4).2)) → b.n ≤ 3 →
      ∀ n, (b64_read rd s b n).dec.n ≤ 3) := by
  refine ⟨?_, ?_, ?_, ?_, ?_⟩
  · intro n hn hb
    obtain ⟨h1, h2, h3, _, _⟩ := b64_drain rd n s b hn (by omega)
    exact ⟨h1, h2, h3⟩
  · intro n x hx
    exact b64_log_all4 rd n s b x hx
  · intro h h2 n hn
    obtain ⟨n', rfl⟩ : ∃ n', n = n' + 1 := ⟨n - 1, by omega⟩
    exact b64_read_short rd s b n' h h2
  · intro h h2 hv
    have hrn : (b64_refill b (rd s 4).2).n = padBytes (pad4 (rd s 4).2) :=
      b64_refill_n b _ hv
    have hsk := b64_skip_le (pad4 (rd s 4).2)
    have hpb : 1 ≤ padBytes (pad4 (rd s 4).2) ∧ padBytes (pad4 (rd s 4).2) ≤ 3 := by
      unfold padBytes
      omega
    obtain ⟨c', hc⟩ : ∃ c', padBytes (pad4 (rd s 4).2) = c' + 1 :=
      ⟨padBytes (pad4 (rd s 4).2) - 1, by omega⟩
    rw [hc, b64_read_refill rd s b c' h (by omega)]
    have hd1 : ((b64_refill b (rd s 4).2).n + 255) % 256 = c' := by
      rw [hrn, hc]
      omega
    obtain ⟨ih1, ih2, ih3, ih4, _⟩ := b64_drain rd c' (rd s 4).1
      ⟨(b64_refill b (rd s 4).2).stack, ((b64_refill b (rd s 4).2).n + 255) % 256⟩
      (by simp only [hd1]; omega) (by simp only [hd1]; omega)
    refine ⟨?_, ?_, ?_, ih1⟩
    · simp only [List.length_cons, ih3]
    · rw [ih4]
      simp only [hd1]
      omega
    · rw [ih2]
  · intro hclean hb n
    exact b64_count_bounded rd hclean n s b hb

/-- Witness for C5: a 2-character pull "AB" (padded to "AB==") yields one
decoded byte in one pull of 4, and an exhausted source (pull of 0
characters) ends the stream with no output. -/
theorem c5_b64_pull_contract_witness :
    (b64_read queueRead [[65, 66]] b64_init 1).out.length = 1 ∧
    (b64_read queueRead [[65, 66]] b64_init 1).dec.n = 0 ∧
    (b64_read queueRead [[65, 66]] b64_init 1).log = [4] ∧
    b64_read queueRead ([] : List (List Nat)) b64_init 3 =
      ⟨[], b64_init, [], [4]⟩ := by
  have h4 := (c5_b64_pull_contract queueRead [[65, 66]] b64_init).2.2.2.1
    (by decide) (by decide) (by decide)
  have h3 := (c5_b64_pull_contract queueRead ([] : List (List Nat)) b64_init).2.2.1
    (by decide) (by decide) 3 (by decide)
  exact ⟨h4.1, h4.2.1, h4.2.2.1, h3⟩

/-- Counterexample for C5 as stated: the group "AA=A" (65,65,61,65) has no
trailing pad character (position 3 is 'A'), all four characters are inside
the accepted alphabet, so the claim's trailing-pad rule says the refill
yields 3 bytes — but the scan stops at the '=' in position 2 and the refill
yields exactly 1 byte: a request for 3 bytes returns 1. -/
theorem c5_b64_pull_contract_cex :
    (b64_read queueRead [[65, 65, 61, 65]] b64_init 3).out.length = 1 ∧
    List.getD [65, 65, 61, 65] 3 0 ≠ 61 ∧ allValid [65, 65, 61, 65] := by
  exact ⟨by decide, by decide, by decide⟩

/-- Claim C6 (the code evaluated at the failing input): pulling the group
"!AAA" (33,65,65,65), whose first character `_b64bits` rejects, does set the
pending count to 0 inside the refill, but the pop `stack[--n]` still runs:
the `unsigned char` count wraps to 255 and the call keeps producing bytes —
a request for 2 bytes returns 2 bytes and leaves the count at 254, instead
of ending the stream with an empty stack as the spec requires. -/
theorem c6_alphabet_error_underflow :
    _b64bits 33 = 255 ∧
    (b64_read queueRead [[33, 65, 65, 65]] b64_init 2).out.length = 2 ∧
    (b64_read queueRead [[33, 65, 65, 65]] b64_init 2).dec.n = 254 := by
  exact ⟨by decide, by decide, by decide⟩

/-! Serial reader and bulk-trailer claim theorems. -/

theorem sr_read_loop_spec (lines : Nat → List Nat) :
    ∀ (fuel k : Nat) (s : SerialReader) (n actual : Nat) (acc : List Nat),
    actual ≤ n → acc.length = actual →
    ∀ r, sr_read_loop lines fuel k s n actual acc = some r →
      (r.2.2.2 = (n : Int) ∧ r.2.2.1.length = n) ∨ r.2.2.2 = -1
  | 0, _, _, _, _, _, _, _, r, hr => by
      exact absurd hr (by simp [sr_read_loop])
  | fuel + 1, k, s, n, actual, acc, hle, hlen, r, hr => by
      rw [sr_read_loop] at hr
      by_cases hcont : actual < n
      · rw [if_pos hcont] at hr
        by_cases hemp : s.buf.length ≤ s.bufidx
        · rw [if_pos hemp] at hr
          by_cases hlong : kMaxBufferSize < (lines k).length
          · rw [if_pos hlong] at hr
            right
            obtain rfl := Option.some.inj hr
            rfl
          · rw [if_neg hlong] at hr
            exact sr_read_loop_spec lines fuel (k + 1) ⟨lines k, 0⟩ n actual acc
              hle hlen r hr
        · rw [if_neg hemp] at hr
          refine sr_read_loop_spec lines fuel k ⟨s.buf, s.bufidx +
            (if s.buf.length - s.bufidx < n - actual then s.buf.length - s.bufidx
              else n - actual)⟩ n
            (actual + (if s.buf.length - s.bufidx < n - actual then s.buf.length - s.bufidx
              else n - actual)) _ (by split <;> omega) ?_ r hr
          simp only [List.length_append, hlen, List.length_take, List.length_drop]
          split <;> omega
      · rw [if_neg hcont] at hr
        left
        obtain rfl := Option.some.inj hr
        have : actual = n := by omega
        subst this
        exact ⟨rfl, hlen⟩

/-- Claim C9: `sr_read(s, buf, n)` either copies exactly `n` bytes and
returns `n`, or returns -1 (a line longer than `kMaxBufferSize`); it never
returns a short positive count.  (The C loop blocks until a line arrives;
runs that never satisfy the request — endless empty lines — are the `none`
case of the fuel-bounded model and return nothing at all.) -/
theorem c9_sr_read_all_or_error (lines : Nat → List Nat) (fuel k : Nat)
    (s : SerialReader) (n : Nat) (r : Nat × SerialReader × List Nat × Int)
    (h : sr_read lines fuel k s n = some r) :
    (r.2.2.2 = (n : Int) ∧ r.2.2.1.length = n) ∨ r.2.2.2 = -1 :=
  sr_read_loop_spec lines fuel k s n 0 [] (by omega) rfl r h

/-- Witness for C9: a request of 5 bytes over 3-byte lines consumes two
lines and returns exactly 5 bytes with return value 5. -/
theorem c9_sr_read_all_or_error_witness :
    (((5 : Int) = ((5 : Nat) : Int)) ∧ (([1, 2, 3, 1, 2] : List Nat).length = 5)) ∨
      ((5 : Int) = -1) :=
  c9_sr_read_all_or_error (fun _ => [1, 2, 3]) 10 0 sr_init 5
    (2, ⟨[1, 2, 3], 2⟩, [1, 2, 3, 1, 2], 5) rfl

/-- Claim C8: after inflation, `BulkWriteEEPROM` flushes the sink and pulls
exactly 4 more bytes through the same base64 decoder; the expected value is
their big-endian 32-bit combination; the reported outcome is exactly the
comparison of that value with the sink's running checksum, which `ew_init`
seeds at the combined value 1 (a = 1, b = 0); and the device state after
the operation is the flushed state, identical for every decoder/source —
a trailer mismatch changes only the reported outcome, never the data
written. -/
theorem c8_trailer_check {σ σ' : Type} (rd : σ → Nat → σ × List Nat)
    (rd' : σ' → Nat → σ' × List Nat) (s : σ) (s' : σ') (b b' : B64Decoder)
    (ew : EepromWriter) (m : Mem) (a : Nat) :
    (bulk_finish rd s b ew m).1 = (ew_flush ew m).2 ∧
    (bulk_finish rd s b ew m).1 = (bulk_finish rd' s' b' ew m).1 ∧
    (bulk_finish rd s b ew m).2.2.2.1 = (ew_flush ew m).1 ∧
    (bulk_finish rd s b ew m).2.2.2.2 = b64_read rd s b 4 ∧
    ((bulk_finish rd s b ew m).2.2.1 = true ↔
      (bulk_finish rd s b ew m).2.1 = (ew_flush ew m).1.chksum) ∧
    (ew_init a).chksum = 1 ∧
    (∀ w x y z : Nat, (b64_read rd s b 4).out = [w, x, y, z] →
      w < 256 → x < 256 → y < 256 → z < 256 →
      (bulk_finish rd s b ew m).2.1 = ((w * 256 + x) * 256 + y) * 256 + z) := by
  refine ⟨rfl, rfl, rfl, rfl, ?_, rfl, ?_⟩
  · show ((bulk_finish rd s b ew m).2.1 == (ew_flush ew m).1.chksum) = true ↔ _
    exact beq_iff_eq
  · intro w x y z hout hw hx hy hz
    rw [show (bulk_finish rd s b ew m).2.1 = (List.range 4).foldl
      (fun e i => (e * 256 + (b64_read rd s b 4).out.getD i 0) % 4294967296) 0 from rfl,
      hout]
    show (((((0 * 256 + w) % 4294967296) * 256 + x) % 4294967296 * 256 + y) % 4294967296
        * 256 + z) % 4294967296 = ((w * 256 + x) * 256 + y) * 256 + z
    omega

/-- Witness for C8: the trailer "ABCDA..." decodes to the 4 bytes
0, 16, 131, 0, whose big-endian combination is 1082112, and `ew_init`
starts the checksum at 1. -/
theorem c8_trailer_check_witness :
    (bulk_finish queueRead [[65, 66, 67, 68], [65, 65, 65, 65]] b64_init
      (ew_init 0) mem0).2.1 = ((0 * 256 + 16) * 256 + 131) * 256 + 0 ∧
    (ew_init 0).chksum = 1 := by
  have h := c8_trailer_check queueRead queueRead
    [[65, 66, 67, 68], [65, 65, 65, 65]] [[65, 66, 67, 68], [65, 65, 65, 65]]
    b64_init b64_init (ew_init 0) mem0 0
  exact ⟨h.2.2.2.2.2.2 0 16 131 0 (by decide) (by decide) (by decide) (by decide)
    (by decide), h.2.2.2.2.2.1⟩

set_option maxRecDepth 4096 in
/-- Claim C10 (the code evaluated against the claimed table): `_b64bits`
agrees with the claimed alphabet on every byte except `'_'` (0x5f = 95),
which the claim (and the dead `case '_':` label in the code) sends to 63
but the code rejects with 0xff — `'_'` has bit 6 set, so it takes the
letter branch, where `(b | 0x20) - 0x61 = 30 ≥ 26` rejects it before the
switch is reached. -/
theorem c10_b64bits_table :
    ((List.range 256).all
      (fun b => b == 95 || (_b64bits b == b64bits_claimed b))) = true ∧
    _b64bits 95 = 255 ∧ b64bits_claimed 95 = 63 ∧
    (List.range 256).all (fun b => _b64bits b < 256) = true := by
  exact ⟨by decide, by decide, by decide, by decide⟩

end EWSpec
